import Mathlib

/-!
# rdio-cache: history cache, ranking and offline-sync reconciliation

A shallow embedding of `main.go`.

* `updateCache` (the pagination loop) is a fuel-indexed function over an
  explicit remote history source; it also records the offsets it requested.
* `rankTracks` keeps its `map[string]*RankedTrack` as an association list in
  insertion order.
* `updateSyncList` is a function from the remote offline list to the remote
  offline list.

Modelling conventions.

* An instant (`time.Time`) is an `Int`: nanoseconds relative to the Unix epoch.
  A `time.Duration` is an `Int` of nanoseconds.
* `time.Parse` belongs to the Go standard library; it is a parameter
  `timeParse : String → Option Int` (`none` is a parse error).
* A `float64` is an exact rational or `+Inf` (`WithTop ℚ`): rounding is not
  modelled, division of a positive number by zero is `+Inf` as in IEEE 754.
* `time.Now()` is one clock reading `now` for a whole ranking pass.
-/

namespace RdioCache

/-! ## Data model -/

/-- The fields of `rdio.Track` the program reads. -/
structure Track where
  Key : String
  Name : String
deriving DecidableEq, Repr

/-- One played track of a history entry (`rdio.HistoryTrack`). -/
structure HistoryTrack where
  Time : String
  Track : Track
deriving DecidableEq, Repr

/-- One history entry (`rdio.HistorySource`); `Name` is `Source.Name`. -/
structure HistorySource where
  Time : String
  Name : String
  Tracks : List HistoryTrack
deriving DecidableEq, Repr

/-- A `float64`: an exact rational, or `⊤` for `+Inf`. -/
abbrev F64 := WithTop ℚ

/-- The struct `RankedTrack` of `main.go`. -/
structure RankedTrack where
  historyTrack : HistoryTrack
  rank : F64

/-! ## Time -/

/-- The zero value `time.Time{}`: 0001-01-01T00:00:00Z, in nanoseconds relative
to the Unix epoch. `time.Parse` returns it together with its error. -/
def zeroTime : Int := -62135596800 * 1000000000

/-- The instant `time.Unix(0, 0)`. -/
def unixEpoch : Int := 0

/-- The function `parseHistoryTime`: the parsed instant and whether `err == nil`. -/
def parseHistoryTime (timeParse : String → Option Int) (timeString : String) : Int × Bool :=
  match timeParse timeString with
  | some t => (t, true)
  | none => (zeroTime, false)

/-- The method `Duration.Hours`, over the rationals. -/
def Hours (d : Int) : ℚ := (d : ℚ) / 3600000000000

/-! ## updateSyncList -/

/-- The remote call `GetOfflineTracks(start, count)` on a remote whose offline
tracks are listed by `remote`: the keys of at most `count` tracks from `start`. -/
def GetOfflineTracks (remote : List String) (start count : Nat) : List String :=
  (remote.drop start).take count

/-- The remote call `SetAvailableOffline(keys, offline)`: with `true` every key
is added to the offline set, with `false` every key is removed from it. -/
def SetAvailableOffline (remote : List String) (keys : List String) (offline : Bool) :
    List String :=
  if offline then keys ∪ remote else remote.filter (fun k => decide (k ∉ keys))

/-- The first loop of `updateSyncList`, from index `i`: it fills `syncedKeyMap`
and `syncedKeyList` and breaks at the first index `i >= maxSync`. -/
def syncedKeys (maxSync : Nat) :
    Nat → List RankedTrack → (String → Option Bool) × List String →
      (String → Option Bool) × List String
  | _, [], acc => acc
  | i, track :: rest, (syncedKeyMap, syncedKeyList) =>
    if i ≥ maxSync then (syncedKeyMap, syncedKeyList)
    else
      syncedKeys maxSync (i + 1) rest
        (fun k => if k = track.historyTrack.Track.Key then some true else syncedKeyMap k,
         syncedKeyList ++ [track.historyTrack.Track.Key])

/-- The function `updateSyncList`: the remote offline list after the two
`SetAvailableOffline` calls, all three remote calls succeeding. A negative
`maxSync` makes `make` panic, so `maxSync` is a natural number. -/
def updateSyncList (remote : List String) (tracks : List RankedTrack) (maxSync : Nat) :
    List String :=
  let currentlySynced := GetOfflineTracks remote 0 1000
  let (syncedKeyMap, syncedKeyList) := syncedKeys maxSync 0 tracks (fun _ => none, [])
  let remote1 := SetAvailableOffline remote syncedKeyList true
  let unsync := currentlySynced.filter (fun k => (syncedKeyMap k).isNone)
  SetAvailableOffline remote1 unsync false

/-- The track keys of the first `min maxSync (length ranked)` ranked tracks. -/
def desiredKeys (ranked : List RankedTrack) (maxSync : Nat) : List String :=
  (ranked.take (min maxSync ranked.length)).map (fun t => t.historyTrack.Track.Key)

/-- A remote offline list of 1001 distinct keys: the empty key, `a`, `aa`, ... -/
def overfullRemote : List String :=
  (List.range 1001).map (fun n => String.mk (List.replicate n 'a'))

/-- The ranked list of the reconciliation example: A (4.2), then C (2.0). -/
def exampleRanked : List RankedTrack :=
  [⟨⟨"2024-01-20T00:00:00", ⟨"A", "Track A"⟩⟩, ((21 / 5 : ℚ) : F64)⟩,
   ⟨⟨"2024-01-19T00:00:00", ⟨"C", "Track C"⟩⟩, ((2 : ℚ) : F64)⟩]

/-! ## A parser for the history layout

`layoutParse` is one instance of the `timeParse` parameter, used at concrete
inputs: it accepts exactly the nineteen characters `YYYY-MM-DDTHH:MM:SS` of the
layout `2006-01-02T15:04:05` and returns the instant in UTC. -/

/-- The value of a decimal digit. -/
def digitVal (c : Char) : Option Nat :=
  if 48 ≤ c.toNat ∧ c.toNat ≤ 57 then some (c.toNat - 48) else none

/-- The number written by a list of decimal digits. -/
def digitsVal : List Char → Option Nat
  | [] => some 0
  | c :: rest =>
    match digitVal c, digitsVal rest with
    | some d, some n => some (d * 10 ^ rest.length + n)
    | _, _ => none

/-- Whether `y` is a leap year of the Gregorian calendar. -/
def isLeap (y : Nat) : Bool :=
  (y % 4 == 0 && y % 100 != 0) || y % 400 == 0

/-- The number of days of month `m` of year `y`. -/
def daysIn (y m : Nat) : Nat :=
  if m = 2 then (if isLeap y then 29 else 28)
  else if m = 4 ∨ m = 6 ∨ m = 9 ∨ m = 11 then 30 else 31

/-- Days from 1970-01-01 to the civil date `y-m-d` (proleptic Gregorian). -/
def daysFromCivil (y m d : Int) : Int :=
  let y1 := if m ≤ 2 then y - 1 else y
  let era := y1 / 400
  let yoe := y1 - era * 400
  let mp := if m > 2 then m - 3 else m + 9
  let doy := (153 * mp + 2) / 5 + d - 1
  let doe := yoe * 365 + yoe / 4 - yoe / 100 + doy
  era * 146097 + doe - 719468

/-- The instant written `YYYY-MM-DDTHH:MM:SS`, in nanoseconds from the Unix
epoch, or `none` when the string is not of that form or names no valid date. -/
def layoutParse (s : String) : Option Int :=
  match s.data with
  | [y1, y2, y3, y4, d1, m1, m2, d2, a1, a2, t, h1, h2, c1, n1, n2, c2, s1, s2] =>
    if d1 = '-' ∧ d2 = '-' ∧ t = 'T' ∧ c1 = ':' ∧ c2 = ':' then
      match digitsVal [y1, y2, y3, y4], digitsVal [m1, m2], digitsVal [a1, a2],
          digitsVal [h1, h2], digitsVal [n1, n2], digitsVal [s1, s2] with
      | some y, some m, some d, some h, some n, some sec =>
        if 1 ≤ m ∧ m ≤ 12 ∧ 1 ≤ d ∧ d ≤ daysIn y m ∧ h < 24 ∧ n < 60 ∧ sec < 60 then
          some ((((daysFromCivil y m d * 24 + h) * 60 + n) * 60 + sec) * 1000000000)
        else none
      | _, _, _, _, _, _ => none
    else none
  | _ => none

/-! ## updateCache -/

/-- How the pagination loop of `updateCache` ends. -/
inductive Outcome where
  /-- The loop was left; `cache` is what `writeCache` gets and `updateCache`
  returns, `requests` the offsets of the pages requested, in order. -/
  | done (cache : List HistorySource) (requests : List Nat)
  /-- The call `GetHistoryForUser` failed: `log.Fatalf` ends the process. -/
  | fatal (requests : List Nat)
  /-- The loop is still running after the given number of page requests. -/
  | running (cache : List HistorySource) (pos : Nat) (requests : List Nat)
deriving DecidableEq, Repr

/-- The test of line 127,
`err == nil && timestamp.Before(lastCachedTime) || timestamp.Equal(lastCachedTime)`;
`&&` binds tighter than `||`. -/
def alreadySeen (timeParse : String → Option Int) (lastCachedTime : Int)
    (source : HistorySource) : Bool :=
  let (timestamp, ok) := parseHistoryTime timeParse source.Time
  (ok && decide (timestamp < lastCachedTime)) || decide (timestamp = lastCachedTime)

/-- The inner loop of `updateCache` over one page: the cache, the position and
whether `break loop` was taken. -/
def scanPage (timeParse : String → Option Int) (lastCachedTime : Int) :
    List HistorySource → List HistorySource → Nat → List HistorySource × Nat × Bool
  | [], cache, pos => (cache, pos, false)
  | source :: rest, cache, pos =>
    if alreadySeen timeParse lastCachedTime source then (cache, pos, true)
    else scanPage timeParse lastCachedTime rest (cache ++ [source]) (pos + source.Tracks.length)

/-- The outer loop of `updateCache`, run for at most `fuel` page requests.
`GetHistoryForUser start count` is the remote call for the current user; `none`
is its error. -/
def fetchLoop (timeParse : String → Option Int)
    (GetHistoryForUser : Nat → Nat → Option (List HistorySource))
    (lastCachedTime : Int) (maxHistory : Int) :
    Nat → List HistorySource → Nat → List Nat → Outcome
  | 0, cache, pos, requests => .running cache pos requests
  | fuel + 1, cache, pos, requests =>
    match GetHistoryForUser pos 10 with
    | none => .fatal (requests ++ [pos])
    | some sources =>
      match scanPage timeParse lastCachedTime sources cache pos with
      | (cache1, _, true) => .done cache1 (requests ++ [pos])
      | (cache1, pos1, false) =>
        if (pos1 : Int) > maxHistory then .done cache1 (requests ++ [pos])
        else fetchLoop timeParse GetHistoryForUser lastCachedTime maxHistory fuel cache1 pos1
          (requests ++ [pos])

/-- The value of `lastCachedTime` when the loop starts: `time.Unix(0, 0)` for an
empty cache, else what `parseHistoryTime` returns for entry 0, its error
dropped. -/
def lastCachedTime (timeParse : String → Option Int) (cache : List HistorySource) : Int :=
  match cache with
  | [] => unixEpoch
  | first :: _ => (parseHistoryTime timeParse first.Time).1

/-- The function `updateCache` on the cache `loadCache` returned, run for at
most `fuel` page requests. -/
def updateCache (timeParse : String → Option Int)
    (GetHistoryForUser : Nat → Nat → Option (List HistorySource))
    (cache : List HistorySource) (maxHistory : Int) (fuel : Nat) : Outcome :=
  fetchLoop timeParse GetHistoryForUser (lastCachedTime timeParse cache) maxHistory fuel cache 0 []

/-! ## Vocabulary of the claims about the cache -/

/-- The number of tracks of the entries of a list, what `pos` advances by when
all of them are appended. -/
def trackCount (page : List HistorySource) : Nat :=
  (page.map (fun s => s.Tracks.length)).sum

/-- The cutoff of the spec: the parsed timestamp of cache entry 0, the Unix
epoch for an empty cache; `none` when entry 0 does not parse. -/
def cutoff (timeParse : String → Option Int) (cache : List HistorySource) : Option Int :=
  match cache with
  | [] => some unixEpoch
  | first :: _ => timeParse first.Time

/-- From offset `pos` the remote serves the pages `pages` one after the other,
each at the offset reached when the page before it was appended whole, and the
position after each of them does not exceed `maxHistory`. -/
def Serves (GetHistoryForUser : Nat → Nat → Option (List HistorySource)) (maxHistory : Int) :
    Nat → List (List HistorySource) → Prop
  | _, [] => True
  | pos, page :: rest =>
    GetHistoryForUser pos 10 = some page ∧
      ((pos + trackCount page : Nat) : Int) ≤ maxHistory ∧
      Serves GetHistoryForUser maxHistory (pos + trackCount page) rest

/-- The offsets at which the pages `pages` are requested, starting at `pos`. -/
def offsets : Nat → List (List HistorySource) → List Nat
  | _, [] => []
  | pos, page :: rest => pos :: offsets (pos + trackCount page) rest

/-- The instants of the entries of a cache, as `parseHistoryTime` returns them. -/
def timestamps (timeParse : String → Option Int) (cache : List HistorySource) : List Int :=
  cache.map (fun s => (parseHistoryTime timeParse s.Time).1)

/-- The timestamps of the entries are non-increasing from position 0. -/
def newestFirst (timeParse : String → Option Int) (cache : List HistorySource) : Bool :=
  decide ((timestamps timeParse cache).Pairwise (fun a b => b ≤ a))

/-- A remote whose whole history is `history`, newest entry first: a request
returns at most `count` entries from entry `start`. -/
def remoteOf (history : List HistorySource) : Nat → Nat → Option (List HistorySource) :=
  fun start count => some ((history.drop start).take count)

/-! ## rankTracks -/

/-- The lookup `tracks[key]` of the map of `rankTracks`. -/
def mapGet : List (String × RankedTrack) → String → Option RankedTrack
  | [], _ => none
  | (k, v) :: rest, key => if k = key then some v else mapGet rest key

/-- The store `tracks[key] = v`. -/
def mapSet : List (String × RankedTrack) → String → RankedTrack → List (String × RankedTrack)
  | [], key, v => [(key, v)]
  | (k, v0) :: rest, key, v =>
    if k = key then (k, v) :: rest else (k, v0) :: mapSet rest key v

/-- The quotient `x / y` of two finite `float64` values with `x` positive:
`+Inf` when `y` is zero. -/
def fdiv (x y : ℚ) : F64 := if y = 0 then ⊤ else ((x / y : ℚ) : F64)

/-- The body of the inner loop of `rankTracks` for one played track. The
pointer update `rankedTrack.rank += ...` is a store of the updated struct. -/
def rankStep (timeParse : String → Option Int) (now : Int) (maxAge : Int)
    (tracks : List (String × RankedTrack)) (track : HistoryTrack) :
    List (String × RankedTrack) :=
  match parseHistoryTime timeParse track.Time with
  | (_, false) => tracks
  | (trackTime, true) =>
    let age := now - trackTime
    if Hours age / 24 > (maxAge : ℚ) then tracks
    else
      let (tracks1, rankedTrack) :=
        match mapGet tracks track.Track.Key with
        | some rt => (tracks, rt)
        | none => (mapSet tracks track.Track.Key ⟨track, 0⟩, ⟨track, 0⟩)
      let weighting := fdiv 2 (Hours age / 24)
      mapSet tracks1 track.Track.Key
        { rankedTrack with rank := rankedTrack.rank + (1 + weighting) }

/-- The function `rankTracks`; the output lists the map in insertion order. -/
def rankTracks (timeParse : String → Option Int) (now : Int) (sources : List HistorySource)
    (maxAge : Int) : List RankedTrack :=
  let tracks := sources.foldl
    (fun tracks source => source.Tracks.foldl (rankStep timeParse now maxAge) tracks) []
  tracks.map Prod.snd

/-- The map of `rankTracks` after the two loops ran over the given plays. -/
def rankMap (timeParse : String → Option Int) (now : Int) (maxAge : Int)
    (plays : List HistoryTrack) : List (String × RankedTrack) :=
  plays.foldl (rankStep timeParse now maxAge) []

/-! ## Vocabulary of the claims about ranking -/

/-- The age in days of a play at instant `t`: `(now - t)` in hours, over 24. -/
def ageDays (now t : Int) : ℚ := Hours (now - t) / 24

/-- The age in days of a played track, when its timestamp parses. -/
def playAge (timeParse : String → Option Int) (now : Int) (p : HistoryTrack) : Option ℚ :=
  (timeParse p.Time).map (ageDays now)

/-- A play qualifies for ranking: its timestamp parses and its age in days is
at most `maxAge`. -/
def qualifies (timeParse : String → Option Int) (now : Int) (maxAge : Int)
    (p : HistoryTrack) : Bool :=
  match playAge timeParse now p with
  | some a => decide (a ≤ (maxAge : ℚ))
  | none => false

/-- All played tracks of a history, in order. -/
def allPlays (sources : List HistorySource) : List HistoryTrack :=
  (sources.map (fun s => s.Tracks)).flatten

/-- The qualifying plays of track key `K` in a list of plays. -/
def qualifyingPlays (timeParse : String → Option Int) (now : Int) (maxAge : Int) (K : String)
    (plays : List HistoryTrack) : List HistoryTrack :=
  plays.filter (fun p => qualifies timeParse now maxAge p && decide (p.Track.Key = K))

/-- What one play adds to its track's rank, as a `float64`: `1 + 2.0 / ageDays`. -/
def contribution (timeParse : String → Option Int) (now : Int) (p : HistoryTrack) : F64 :=
  match playAge timeParse now p with
  | some a => 1 + fdiv 2 a
  | none => 0

/-- The exact rational `1 + 2 / ageDays` of a play. -/
def exactContribution (timeParse : String → Option Int) (now : Int) (p : HistoryTrack) : ℚ :=
  match playAge timeParse now p with
  | some a => 1 + 2 / a
  | none => 0

/-- The `float64` sum of what the qualifying plays of `K` contribute. -/
def score (timeParse : String → Option Int) (now : Int) (maxAge : Int) (K : String)
    (plays : List HistoryTrack) : F64 :=
  ((qualifyingPlays timeParse now maxAge K plays).map (contribution timeParse now)).sum

/-- The rank the output of `rankTracks` gives track key `K`, if it lists it. -/
def rankOf (K : String) (out : List RankedTrack) : Option F64 :=
  (out.find? (fun r => decide (r.historyTrack.Track.Key = K))).map (fun r => r.rank)

/-! ## Concrete inputs -/

/-- The clock reading 2024-01-21T00:00:00Z. -/
def exampleNow : Int := 1705795200000000000

/-- Track A played one day before `exampleNow`. -/
def playA1 : HistoryTrack := ⟨"2024-01-20T00:00:00", ⟨"A", "Track A"⟩⟩

/-- Track A played ten days before `exampleNow`. -/
def playA10 : HistoryTrack := ⟨"2024-01-11T00:00:00", ⟨"A", "Track A"⟩⟩

/-- Track B played thirty days before `exampleNow`. -/
def playB30 : HistoryTrack := ⟨"2023-12-22T00:00:00", ⟨"B", "Track B"⟩⟩

/-- Track A played at `exampleNow` itself. -/
def playA0 : HistoryTrack := ⟨"2024-01-21T00:00:00", ⟨"A", "Track A"⟩⟩

/-- Track A with a timestamp one day after `exampleNow`. -/
def playAhead : HistoryTrack := ⟨"2024-01-22T00:00:00", ⟨"A", "Track A"⟩⟩

/-- The ranking example of the spec: track A played at ages 1 and 10 days,
track B played once at age 30 days. -/
def exampleHistory : List HistorySource :=
  [⟨"2024-01-20T00:00:00", "Album one", [playA1]⟩,
   ⟨"2024-01-11T00:00:00", "Album one", [playA10]⟩,
   ⟨"2023-12-22T00:00:00", "Album two", [playB30]⟩]

/-- Track B played three times, each thirty days before `exampleNow`, and
track A once, one day before. -/
def oldPlaysHistory : List HistorySource :=
  [⟨"2023-12-22T00:00:00", "Album two", [playB30, playB30, playB30]⟩,
   ⟨"2024-01-20T00:00:00", "Album one", [playA1]⟩]

/-- A history with the single play `playA1`. -/
def historyA1 : List HistorySource :=
  [⟨"2024-01-20T00:00:00", "Album one", [playA1]⟩]

/-- The history `historyA1` extended with the play `playA10`. -/
def historyA1A10 : List HistorySource :=
  [⟨"2024-01-20T00:00:00", "Album one", [playA1]⟩,
   ⟨"2024-01-11T00:00:00", "Album one", [playA10]⟩]

/-- The history `historyA1` extended with the play `playAhead`, whose timestamp
is one day ahead of the clock. -/
def historyA1Ahead : List HistorySource :=
  [⟨"2024-01-20T00:00:00", "Album one", [playA1]⟩,
   ⟨"2024-01-22T00:00:00", "Album one", [playAhead]⟩]

/-- A history with the single play `playA0`, made at the time of ranking. -/
def historyA0 : List HistorySource :=
  [⟨"2024-01-21T00:00:00", "Album one", [playA0]⟩]

/-- A history entry of 5 January 2024 with one track. -/
def entryJan05 : HistorySource :=
  ⟨"2024-01-05T12:00:00", "Album one", [⟨"2024-01-05T12:00:00", ⟨"A", "Track A"⟩⟩]⟩

/-- A history entry of 7 January 2024 with one track. -/
def entryJan07 : HistorySource :=
  ⟨"2024-01-07T12:00:00", "Album two", [⟨"2024-01-07T12:00:00", ⟨"B", "Track B"⟩⟩]⟩

/-- A history entry of 10 January 2024 with one track. -/
def entryJan10 : HistorySource :=
  ⟨"2024-01-10T12:00:00", "Album three", [⟨"2024-01-10T12:00:00", ⟨"C", "Track C"⟩⟩]⟩

/-- A history entry whose timestamp does not parse, with one track. -/
def entryGarbled : HistorySource :=
  ⟨"yesterday", "Album four", [⟨"2024-01-09T12:00:00", ⟨"D", "Track D"⟩⟩]⟩

/-- A history entry whose timestamp is 0001-01-01T00:00:00, the instant of
`time.Time{}`. -/
def entryYearOne : HistorySource :=
  ⟨"0001-01-01T00:00:00", "Album five", [⟨"0001-01-01T00:00:00", ⟨"E", "Track E"⟩⟩]⟩

/-- A remote that returns the one entry `entryJan10` at offset 0 and the older
entries `entryJan07`, `entryJan05` at every other offset. -/
def twoPageRemote : Nat → Nat → Option (List HistorySource) :=
  fun start _ => if start = 0 then some [entryJan10] else some [entryJan07, entryJan05]

/-- The instant 2024-01-05T12:00:00Z, the timestamp of `entryJan05`. -/
def jan05 : Int := 1704456000000000000

/-! ## Lemmas: updateSyncList -/

theorem syncedKeys_spec (maxSync : Nat) (tracks : List RankedTrack) :
    ∀ (i : Nat) (m : String → Option Bool) (l : List String),
      (∀ k, (m k).isSome ↔ k ∈ l) →
      (∀ k, ((syncedKeys maxSync i tracks (m, l)).1 k).isSome ↔
          k ∈ (syncedKeys maxSync i tracks (m, l)).2) ∧
        (syncedKeys maxSync i tracks (m, l)).2 =
          l ++ (tracks.take (maxSync - i)).map (fun t => t.historyTrack.Track.Key) := by
  induction tracks with
  | nil => intro i m l h; simp [syncedKeys, h]
  | cons t rest ih =>
    intro i m l h
    by_cases hi : i ≥ maxSync
    · have h0 : maxSync - i = 0 := by omega
      simp [syncedKeys, hi, h, h0]
    · have hs : maxSync - i = (maxSync - (i + 1)) + 1 := by omega
      simp only [syncedKeys, hi, if_false]
      have h1 : ∀ k, ((fun k => if k = t.historyTrack.Track.Key then some true else m k) k).isSome ↔
          k ∈ l ++ [t.historyTrack.Track.Key] := by
        intro k
        by_cases hk : k = t.historyTrack.Track.Key
        · simp [hk]
        · simp [hk, h]
      obtain ⟨ha, hb⟩ := ih (i + 1) _ _ h1
      refine ⟨ha, ?_⟩
      rw [hb, hs]
      simp

theorem mem_updateSyncList (remote : List String) (tracks : List RankedTrack) (maxSync : Nat)
    (k : String) :
    k ∈ updateSyncList remote tracks maxSync ↔
      (k ∈ desiredKeys tracks maxSync ∨ k ∈ remote) ∧
        ¬ (k ∈ remote.take 1000 ∧ k ∉ desiredKeys tracks maxSync) := by
  obtain ⟨ha, hb⟩ := syncedKeys_spec maxSync tracks 0 (fun _ => none) [] (by simp)
  have hd : (syncedKeys maxSync 0 tracks (fun _ => none, [])).2 = desiredKeys tracks maxSync := by
    rw [hb, desiredKeys]
    simp [List.take_take]
  have hn : ∀ k, ((syncedKeys maxSync 0 tracks (fun _ => none, [])).1 k).isNone = true ↔
      k ∉ desiredKeys tracks maxSync := by
    intro k
    rw [← hd, ← ha k]
    cases (syncedKeys maxSync 0 tracks (fun _ => none, [])).1 k <;> simp
  simp only [updateSyncList, SetAvailableOffline, GetOfflineTracks, if_true, List.drop_zero]
  simp only [List.mem_filter, List.mem_union_iff, decide_eq_true_eq, hd, hn, Bool.false_eq_true,
    if_false]

/-! ## Lemmas: the map of rankTracks -/

theorem mapGet_mapSet (m : List (String × RankedTrack)) (k : String) (v : RankedTrack)
    (k' : String) :
    mapGet (mapSet m k v) k' = if k = k' then some v else mapGet m k' := by
  induction m with
  | nil => simp [mapSet, mapGet]
  | cons e rest ih =>
    obtain ⟨k0, v0⟩ := e
    by_cases h : k0 = k
    · subst h
      by_cases h' : k0 = k' <;> simp [mapSet, mapGet, h']
    · by_cases h' : k0 = k'
      · subst h'
        have h1 : ¬ k = k0 := fun e => h e.symm
        simp [mapSet, mapGet, h, h1]
      · simp [mapSet, mapGet, h, h', ih]

theorem mapSet_mapSet (m : List (String × RankedTrack)) (k : String) (v w : RankedTrack) :
    mapSet (mapSet m k v) k w = mapSet m k w := by
  induction m with
  | nil => simp [mapSet]
  | cons e rest ih =>
    obtain ⟨k0, v0⟩ := e
    by_cases h : k0 = k <;> simp [mapSet, h, ih]

theorem mapGet_eq_none_iff (m : List (String × RankedTrack)) (k : String) :
    mapGet m k = none ↔ k ∉ m.map Prod.fst := by
  induction m with
  | nil => simp [mapGet]
  | cons e rest ih =>
    obtain ⟨k0, v0⟩ := e
    by_cases h : k0 = k
    · simp [mapGet, h]
    · have h' : ¬ k = k0 := fun e => h e.symm
      simp [mapGet, h, h', ih]

theorem keys_mapSet (m : List (String × RankedTrack)) (k : String) (v : RankedTrack) :
    (mapSet m k v).map Prod.fst =
      if k ∈ m.map Prod.fst then m.map Prod.fst else m.map Prod.fst ++ [k] := by
  induction m with
  | nil => simp [mapSet]
  | cons e rest ih =>
    obtain ⟨k0, v0⟩ := e
    by_cases h : k0 = k
    · simp [mapSet, h]
    · have h' : ¬ k = k0 := fun e => h e.symm
      simp only [mapSet, h, if_false, List.map_cons, ih, List.mem_cons, h', false_or]
      split_ifs <;> simp

theorem nodup_keys_mapSet (m : List (String × RankedTrack)) (k : String) (v : RankedTrack)
    (hm : (m.map Prod.fst).Nodup) : ((mapSet m k v).map Prod.fst).Nodup := by
  rw [keys_mapSet]
  split_ifs with h
  · exact hm
  · exact List.Nodup.append hm (List.nodup_singleton k) (by simpa using h)

theorem mem_mapSet (m : List (String × RankedTrack)) (k : String) (v : RankedTrack)
    (e : String × RankedTrack) (he : e ∈ mapSet m k v) : e ∈ m ∨ e = (k, v) := by
  induction m with
  | nil => simpa [mapSet] using he
  | cons e0 rest ih =>
    obtain ⟨k0, v0⟩ := e0
    by_cases h : k0 = k
    · simp only [mapSet, h, if_true, List.mem_cons] at he
      rcases he with he | he
      · exact Or.inr he
      · exact Or.inl (List.mem_cons_of_mem _ he)
    · simp only [mapSet, h, if_false, List.mem_cons] at he
      rcases he with he | he
      · exact Or.inl (he ▸ List.mem_cons_self _ _)
      · rcases ih he with h1 | h1
        · exact Or.inl (List.mem_cons_of_mem _ h1)
        · exact Or.inr h1

theorem mapGet_of_mem (m : List (String × RankedTrack)) (hm : (m.map Prod.fst).Nodup)
    (e : String × RankedTrack) (he : e ∈ m) : mapGet m e.1 = some e.2 := by
  induction m with
  | nil => simp at he
  | cons e0 rest ih =>
    obtain ⟨k0, v0⟩ := e0
    rw [List.map_cons, List.nodup_cons] at hm
    rcases List.mem_cons.mp he with h | h
    · subst h; simp [mapGet]
    · have hne : ¬ k0 = e.1 := by
        intro h0
        have hin : e.1 ∈ rest.map Prod.fst := List.mem_map_of_mem Prod.fst h
        rw [← h0] at hin
        exact hm.1 hin
      simp [mapGet, hne, ih hm.2 h]

/-! ## Lemmas: rankTracks -/

theorem rankStep_skip (timeParse : String → Option Int) (now maxAge : Int)
    (m : List (String × RankedTrack)) (p : HistoryTrack)
    (h : qualifies timeParse now maxAge p = false) :
    rankStep timeParse now maxAge m p = m := by
  unfold qualifies playAge at h
  unfold rankStep parseHistoryTime
  cases ht : timeParse p.Time with
  | none => rfl
  | some t =>
    simp only [ht, Option.map_some', decide_eq_false_iff_not, not_le, ageDays] at h
    simp [h]

theorem rankStep_count (timeParse : String → Option Int) (now maxAge : Int)
    (m : List (String × RankedTrack)) (p : HistoryTrack)
    (h : qualifies timeParse now maxAge p = true) :
    rankStep timeParse now maxAge m p =
      mapSet m p.Track.Key
        ⟨((mapGet m p.Track.Key).map (fun r => r.historyTrack)).getD p,
         ((mapGet m p.Track.Key).map (fun r => r.rank)).getD 0 +
           contribution timeParse now p⟩ := by
  unfold qualifies playAge at h
  unfold rankStep parseHistoryTime contribution playAge
  cases ht : timeParse p.Time with
  | none => simp [ht] at h
  | some t =>
    simp only [ht, Option.map_some', decide_eq_true_eq, ageDays] at h
    have h' : ¬ (Hours (now - t) / 24 > (maxAge : ℚ)) := not_lt.mpr h
    cases hg : mapGet m p.Track.Key with
    | none => simp [h', hg, mapSet_mapSet, ageDays]
    | some rt => simp [h', hg, ageDays]

theorem mem_of_mapGet (m : List (String × RankedTrack)) (k : String) (v : RankedTrack)
    (h : mapGet m k = some v) : (k, v) ∈ m := by
  induction m with
  | nil => simp [mapGet] at h
  | cons e rest ih =>
    obtain ⟨k0, v0⟩ := e
    by_cases h0 : k0 = k
    · simp only [mapGet, h0, if_true, Option.some.injEq] at h
      simp [h0, h]
    · simp only [mapGet, h0, if_false] at h
      exact List.mem_cons_of_mem _ (ih h)

theorem qualifyingPlays_append (timeParse : String → Option Int) (now maxAge : Int) (K : String)
    (l₁ l₂ : List HistoryTrack) :
    qualifyingPlays timeParse now maxAge K (l₁ ++ l₂) =
      qualifyingPlays timeParse now maxAge K l₁ ++ qualifyingPlays timeParse now maxAge K l₂ := by
  simp [qualifyingPlays]

theorem score_append (timeParse : String → Option Int) (now maxAge : Int) (K : String)
    (l₁ l₂ : List HistoryTrack) :
    score timeParse now maxAge K (l₁ ++ l₂) =
      score timeParse now maxAge K l₁ + score timeParse now maxAge K l₂ := by
  simp [score, qualifyingPlays_append]

theorem rankMap_spec (timeParse : String → Option Int) (now maxAge : Int)
    (plays : List HistoryTrack) :
    ((rankMap timeParse now maxAge plays).map Prod.fst).Nodup ∧
      (∀ e ∈ rankMap timeParse now maxAge plays, e.2.historyTrack.Track.Key = e.1) ∧
      ∀ K, (mapGet (rankMap timeParse now maxAge plays) K).map (fun r => r.rank) =
        if qualifyingPlays timeParse now maxAge K plays = [] then none
        else some (score timeParse now maxAge K plays) := by
  induction plays using List.reverseRecOn with
  | nil => simp [rankMap, mapGet, qualifyingPlays]
  | append_singleton plays p ih =>
    obtain ⟨hnd, hkey, hrank⟩ := ih
    have hstep : rankMap timeParse now maxAge (plays ++ [p]) =
        rankStep timeParse now maxAge (rankMap timeParse now maxAge plays) p := by
      simp [rankMap, List.foldl_append]
    rw [hstep]
    cases hq : qualifies timeParse now maxAge p with
    | false =>
      rw [rankStep_skip _ _ _ _ _ hq]
      refine ⟨hnd, hkey, fun K => ?_⟩
      have : qualifyingPlays timeParse now maxAge K [p] = [] := by
        simp [qualifyingPlays, hq]
      rw [hrank K, score_append, qualifyingPlays_append, this]
      simp [score, this]
    | true =>
      rw [rankStep_count _ _ _ _ _ hq]
      refine ⟨nodup_keys_mapSet _ _ _ hnd, ?_, fun K => ?_⟩
      · intro e he
        rcases mem_mapSet _ _ _ _ he with h | h
        · exact hkey e h
        · subst h
          cases hg : mapGet (rankMap timeParse now maxAge plays) p.Track.Key with
          | none => simp
          | some rt => simpa using hkey _ (mem_of_mapGet _ _ _ hg)
      · rw [mapGet_mapSet, score_append, qualifyingPlays_append]
        by_cases hK : p.Track.Key = K
        · have hone : qualifyingPlays timeParse now maxAge K [p] = [p] := by
            simp [qualifyingPlays, hq, hK]
          have hr0 : ((mapGet (rankMap timeParse now maxAge plays) p.Track.Key).map
              (fun r => r.rank)).getD 0 = score timeParse now maxAge K plays := by
            rw [hK, hrank K]
            split_ifs with h0
            · simp [score, h0]
            · simp
          rw [hr0]
          simp [hK, hone, score]
        · have hnone : qualifyingPlays timeParse now maxAge K [p] = [] := by
            simp [qualifyingPlays, hK]
          simp [hK, hnone, hrank K, score]

theorem rankTracks_eq (timeParse : String → Option Int) (now : Int)
    (sources : List HistorySource) (maxAge : Int) :
    rankTracks timeParse now sources maxAge =
      (rankMap timeParse now maxAge (allPlays sources)).map Prod.snd := by
  simp [rankTracks, rankMap, allPlays, List.foldl_flatten, List.foldl_map]

theorem rankOf_map_snd (K : String) (m : List (String × RankedTrack))
    (hkey : ∀ e ∈ m, e.2.historyTrack.Track.Key = e.1) :
    rankOf K (m.map Prod.snd) = (mapGet m K).map (fun r => r.rank) := by
  induction m with
  | nil => simp [rankOf, mapGet]
  | cons e rest ih =>
    obtain ⟨k0, v0⟩ := e
    have h0 : v0.historyTrack.Track.Key = k0 := hkey (k0, v0) (List.mem_cons_self _ _)
    have ih' := ih (fun e he => hkey e (List.mem_cons_of_mem _ he))
    unfold rankOf at ih' ⊢
    by_cases h : k0 = K
    · simp [mapGet, List.find?, h0, h]
    · simp only [List.map_cons, List.find?, h0, h, decide_False, mapGet, if_false]
      exact ih'

theorem rankOf_rankTracks (timeParse : String → Option Int) (now : Int)
    (sources : List HistorySource) (maxAge : Int) (K : String) :
    rankOf K (rankTracks timeParse now sources maxAge) =
      if qualifyingPlays timeParse now maxAge K (allPlays sources) = [] then none
      else some (score timeParse now maxAge K (allPlays sources)) := by
  obtain ⟨_, hkey, hrank⟩ := rankMap_spec timeParse now maxAge (allPlays sources)
  rw [rankTracks_eq, rankOf_map_snd K _ hkey, hrank K]

theorem keys_rankTracks (timeParse : String → Option Int) (now : Int)
    (sources : List HistorySource) (maxAge : Int) :
    (rankTracks timeParse now sources maxAge).map (fun r => r.historyTrack.Track.Key) =
      (rankMap timeParse now maxAge (allPlays sources)).map Prod.fst := by
  obtain ⟨_, hkey, _⟩ := rankMap_spec timeParse now maxAge (allPlays sources)
  rw [rankTracks_eq, List.map_map]
  exact List.map_congr_left (fun e he => hkey e he)

theorem mem_keys_rankTracks (timeParse : String → Option Int) (now : Int)
    (sources : List HistorySource) (maxAge : Int) (K : String) :
    K ∈ (rankTracks timeParse now sources maxAge).map (fun r => r.historyTrack.Track.Key) ↔
      qualifyingPlays timeParse now maxAge K (allPlays sources) ≠ [] := by
  obtain ⟨_, _, hrank⟩ := rankMap_spec timeParse now maxAge (allPlays sources)
  rw [keys_rankTracks]
  have h1 := mapGet_eq_none_iff (rankMap timeParse now maxAge (allPlays sources)) K
  have h2 := hrank K
  constructor
  · intro hin hnil
    rw [if_pos hnil, Option.map_eq_none'] at h2
    exact (h1.mp h2) hin
  · intro hne
    by_contra hnot
    rw [h1.mpr hnot, if_neg hne] at h2
    simp at h2

theorem rank_of_mem_rankTracks (timeParse : String → Option Int) (now : Int)
    (sources : List HistorySource) (maxAge : Int) (r : RankedTrack)
    (hr : r ∈ rankTracks timeParse now sources maxAge) :
    r.rank = score timeParse now maxAge r.historyTrack.Track.Key (allPlays sources) := by
  obtain ⟨hnd, hkey, hrank⟩ := rankMap_spec timeParse now maxAge (allPlays sources)
  rw [rankTracks_eq] at hr
  obtain ⟨e, he, rfl⟩ := List.mem_map.mp hr
  have hg := mapGet_of_mem _ hnd e he
  have hk := hkey e he
  have h2 := hrank e.1
  rw [hg] at h2
  rw [hk]
  split_ifs at h2 with h0
  · simp at h2
  · simpa using h2

theorem qualifyingPlays_ne_nil_iff (timeParse : String → Option Int) (now maxAge : Int)
    (K : String) (plays : List HistoryTrack) :
    qualifyingPlays timeParse now maxAge K plays ≠ [] ↔
      ∃ p ∈ plays, qualifies timeParse now maxAge p = true ∧ p.Track.Key = K := by
  unfold qualifyingPlays
  rw [Ne, List.filter_eq_nil_iff]
  simp

theorem contribution_eq_exact (timeParse : String → Option Int) (now : Int) (p : HistoryTrack)
    (h : playAge timeParse now p ≠ some 0) :
    contribution timeParse now p = ((exactContribution timeParse now p : ℚ) : F64) := by
  unfold contribution exactContribution
  cases ha : playAge timeParse now p with
  | none => simp
  | some a =>
    have h0 : a ≠ 0 := by
      intro e
      exact h (by rw [ha, e])
    simp [fdiv, h0]

theorem sum_contribution_eq_exact (timeParse : String → Option Int) (now : Int)
    (l : List HistoryTrack) (h : ∀ p ∈ l, playAge timeParse now p ≠ some 0) :
    (l.map (contribution timeParse now)).sum =
      (((l.map (exactContribution timeParse now)).sum : ℚ) : F64) := by
  induction l with
  | nil => simp
  | cons p rest ih =>
    have h1 := contribution_eq_exact timeParse now p (h p (List.mem_cons_self _ _))
    have h2 := ih (fun q hq => h q (List.mem_cons_of_mem _ hq))
    simp [h1, h2]

theorem mem_qualifyingPlays (timeParse : String → Option Int) (now maxAge : Int) (K : String)
    (plays : List HistoryTrack) (p : HistoryTrack) :
    p ∈ qualifyingPlays timeParse now maxAge K plays ↔
      p ∈ plays ∧ qualifies timeParse now maxAge p = true ∧ p.Track.Key = K := by
  simp [qualifyingPlays]

/-! ## Lemmas: the concrete plays -/

theorem playAge_playA1 : playAge layoutParse exampleNow playA1 = some 1 := by
  have h : layoutParse playA1.Time = some 1705708800000000000 := by decide
  simp only [playAge, h, Option.map_some']
  norm_num [ageDays, Hours, exampleNow]

theorem playAge_playA10 : playAge layoutParse exampleNow playA10 = some 10 := by
  have h : layoutParse playA10.Time = some 1704931200000000000 := by decide
  simp only [playAge, h, Option.map_some']
  norm_num [ageDays, Hours, exampleNow]

theorem playAge_playB30 : playAge layoutParse exampleNow playB30 = some 30 := by
  have h : layoutParse playB30.Time = some 1703203200000000000 := by decide
  simp only [playAge, h, Option.map_some']
  norm_num [ageDays, Hours, exampleNow]

theorem playAge_playA0 : playAge layoutParse exampleNow playA0 = some 0 := by
  have h : layoutParse playA0.Time = some 1705795200000000000 := by decide
  simp only [playAge, h, Option.map_some']
  norm_num [ageDays, Hours, exampleNow]

theorem playAge_playAhead : playAge layoutParse exampleNow playAhead = some (-1) := by
  have h : layoutParse playAhead.Time = some 1705881600000000000 := by decide
  simp only [playAge, h, Option.map_some']
  norm_num [ageDays, Hours, exampleNow]

theorem qualifies_playA1 : qualifies layoutParse exampleNow 21 playA1 = true := by
  simp [qualifies, playAge_playA1]

theorem qualifies_playA10 : qualifies layoutParse exampleNow 21 playA10 = true := by
  simp [qualifies, playAge_playA10]
  norm_num

theorem qualifies_playB30 : qualifies layoutParse exampleNow 21 playB30 = false := by
  simp [qualifies, playAge_playB30]
  norm_num

theorem qualifies_playA0 : qualifies layoutParse exampleNow 21 playA0 = true := by
  simp [qualifies, playAge_playA0]

theorem qualifies_playAhead : qualifies layoutParse exampleNow 21 playAhead = true := by
  simp [qualifies, playAge_playAhead]
  norm_num

theorem one_add_fdiv (a : ℚ) (h0 : a ≠ 0) : (1 : F64) + fdiv 2 a = ((1 + 2 / a : ℚ) : F64) := by
  simp [fdiv, h0]

theorem contribution_playA1 :
    contribution layoutParse exampleNow playA1 = ((3 : ℚ) : F64) := by
  simp only [contribution, playAge_playA1]
  rw [one_add_fdiv 1 (by norm_num)]
  congr 1
  norm_num

theorem contribution_playA10 :
    contribution layoutParse exampleNow playA10 = ((6 / 5 : ℚ) : F64) := by
  simp only [contribution, playAge_playA10]
  rw [one_add_fdiv 10 (by norm_num)]
  congr 1
  norm_num

theorem contribution_playA0 : contribution layoutParse exampleNow playA0 = ⊤ := by
  simp [contribution, playAge_playA0, fdiv]

theorem contribution_playAhead :
    contribution layoutParse exampleNow playAhead = ((-1 : ℚ) : F64) := by
  simp only [contribution, playAge_playAhead]
  rw [one_add_fdiv (-1) (by norm_num)]
  congr 1
  norm_num

theorem contribution_nonneg (timeParse : String → Option Int) (now : Int) (p : HistoryTrack)
    (h : ∀ a, playAge timeParse now p = some a → 0 ≤ a ∨ a ≤ -2) :
    0 ≤ contribution timeParse now p := by
  unfold contribution
  cases ha : playAge timeParse now p with
  | none => exact le_refl _
  | some a =>
    by_cases h0 : a = 0
    · simp [fdiv, h0]
    · have hq : (0 : ℚ) ≤ 1 + 2 / a := by
        rcases h a ha with hpos | hneg
        · have : 0 ≤ 2 / a := div_nonneg (by norm_num) hpos
          linarith
        · have ha' : a < 0 := by linarith
          have : 1 + 2 / a = (a + 2) / a := by
            field_simp
          rw [this]
          exact div_nonneg_of_nonpos (by linarith) (le_of_lt ha')
      show (0 : F64) ≤ 1 + fdiv 2 a
      rw [one_add_fdiv a h0]
      exact_mod_cast hq

theorem rankTracks_exampleHistory :
    rankTracks layoutParse exampleNow exampleHistory 21 =
      [⟨playA1, ((21 / 5 : ℚ) : F64)⟩] := by
  have ha : allPlays exampleHistory = [playA1, playA10, playB30] := rfl
  have k1 : playA1.Track.Key = "A" := rfl
  have k2 : playA10.Track.Key = "A" := rfl
  have hsum : ((0 : F64) + ((3 : ℚ) : F64)) + ((6 / 5 : ℚ) : F64) = ((21 / 5 : ℚ) : F64) := by
    rw [zero_add, ← WithTop.coe_add]
    congr 1
    norm_num
  rw [rankTracks_eq, ha]
  simp only [rankMap, List.foldl]
  rw [rankStep_count _ _ _ _ _ qualifies_playA1, contribution_playA1, k1]
  simp only [mapGet, mapSet, Option.map_none', Option.getD_none]
  rw [rankStep_count _ _ _ _ _ qualifies_playA10, contribution_playA10, k2]
  simp only [mapGet, mapSet, if_true, Option.map_some', Option.getD_some]
  rw [rankStep_skip _ _ _ _ _ qualifies_playB30, hsum]
  rfl

theorem sum_contribution_eq_top_iff (timeParse : String → Option Int) (now : Int)
    (l : List HistoryTrack) :
    (l.map (contribution timeParse now)).sum = ⊤ ↔
      ∃ p ∈ l, playAge timeParse now p = some 0 := by
  have hone : ∀ p, contribution timeParse now p = ⊤ ↔ playAge timeParse now p = some 0 := by
    intro p
    unfold contribution
    cases ha : playAge timeParse now p with
    | none => simp
    | some a =>
      by_cases h0 : a = 0
      · simp [fdiv, h0]
      · have hne : ((1 + 2 / a : ℚ) : F64) ≠ ⊤ := WithTop.coe_ne_top
        show (1 : F64) + fdiv 2 a = ⊤ ↔ some a = some 0
        rw [one_add_fdiv a h0]
        simp [h0]
  induction l with
  | nil => simp
  | cons p rest ih =>
    rw [List.map_cons, List.sum_cons, WithTop.add_eq_top, hone p]
    constructor
    · rintro (h | h)
      · exact ⟨p, List.mem_cons_self _ _, h⟩
      · obtain ⟨q, hq, hq0⟩ := ih.mp h
        exact ⟨q, List.mem_cons_of_mem _ hq, hq0⟩
    · rintro ⟨q, hq, hq0⟩
      rcases List.mem_cons.mp hq with rfl | hq'
      · exact Or.inl hq0
      · exact Or.inr (ih.mpr ⟨q, hq', hq0⟩)

theorem rankTracks_historyA1 :
    rankTracks layoutParse exampleNow historyA1 21 = [⟨playA1, ((3 : ℚ) : F64)⟩] := by
  have ha : allPlays historyA1 = [playA1] := rfl
  have k1 : playA1.Track.Key = "A" := rfl
  rw [rankTracks_eq, ha]
  simp only [rankMap, List.foldl]
  rw [rankStep_count _ _ _ _ _ qualifies_playA1, contribution_playA1, k1]
  simp only [mapGet, mapSet, Option.map_none', Option.getD_none, zero_add]
  rfl

theorem rankTracks_historyA1Ahead :
    rankTracks layoutParse exampleNow historyA1Ahead 21 = [⟨playA1, ((2 : ℚ) : F64)⟩] := by
  have ha : allPlays historyA1Ahead = [playA1, playAhead] := rfl
  have k1 : playA1.Track.Key = "A" := rfl
  have k2 : playAhead.Track.Key = "A" := rfl
  have hsum : ((0 : F64) + ((3 : ℚ) : F64)) + ((-1 : ℚ) : F64) = ((2 : ℚ) : F64) := by
    rw [zero_add, ← WithTop.coe_add]
    congr 1
    norm_num
  rw [rankTracks_eq, ha]
  simp only [rankMap, List.foldl]
  rw [rankStep_count _ _ _ _ _ qualifies_playA1, contribution_playA1, k1]
  simp only [mapGet, mapSet, Option.map_none', Option.getD_none]
  rw [rankStep_count _ _ _ _ _ qualifies_playAhead, contribution_playAhead, k2]
  simp only [mapGet, mapSet, if_true, Option.map_some', Option.getD_some]
  rw [hsum]
  rfl

theorem rankTracks_historyA0 :
    rankTracks layoutParse exampleNow historyA0 21 = [⟨playA0, ⊤⟩] := by
  have ha : allPlays historyA0 = [playA0] := rfl
  have k1 : playA0.Track.Key = "A" := rfl
  rw [rankTracks_eq, ha]
  simp only [rankMap, List.foldl]
  rw [rankStep_count _ _ _ _ _ qualifies_playA0, contribution_playA0, k1]
  simp only [mapGet, mapSet, Option.map_none', Option.getD_none, zero_add]
  rfl

theorem exampleHistory_ages (p : HistoryTrack) (hp : p ∈ allPlays exampleHistory) :
    playAge layoutParse exampleNow p ≠ some 0 := by
  have ha : allPlays exampleHistory = [playA1, playA10, playB30] := rfl
  rw [ha] at hp
  simp only [List.mem_cons, List.mem_singleton, List.not_mem_nil, or_false] at hp
  rcases hp with rfl | rfl | rfl
  · rw [playAge_playA1]; norm_num
  · rw [playAge_playA10]; norm_num
  · rw [playAge_playB30]; norm_num

/-! ## Lemmas: updateCache -/

theorem trackCount_append (l₁ l₂ : List HistorySource) :
    trackCount (l₁ ++ l₂) = trackCount l₁ + trackCount l₂ := by
  simp [trackCount]

theorem scanPage_all_new (timeParse : String → Option Int) (last : Int)
    (page : List HistorySource) :
    ∀ (cache : List HistorySource) (pos : Nat),
      (∀ s ∈ page, alreadySeen timeParse last s = false) →
      scanPage timeParse last page cache pos = (cache ++ page, pos + trackCount page, false) := by
  induction page with
  | nil => intro cache pos _; simp [scanPage, trackCount]
  | cons s rest ih =>
    intro cache pos h
    have hs := h s (List.mem_cons_self _ _)
    have hrest := ih (cache ++ [s]) (pos + s.Tracks.length)
      (fun x hx => h x (List.mem_cons_of_mem _ hx))
    simp only [scanPage, hs, Bool.false_eq_true, if_false, hrest]
    simp [trackCount, Nat.add_assoc]

theorem scanPage_append_new (timeParse : String → Option Int) (last : Int)
    (pre rest : List HistorySource) :
    ∀ (cache : List HistorySource) (pos : Nat),
      (∀ s ∈ pre, alreadySeen timeParse last s = false) →
      scanPage timeParse last (pre ++ rest) cache pos =
        scanPage timeParse last rest (cache ++ pre) (pos + trackCount pre) := by
  induction pre with
  | nil => intro cache pos _; simp [trackCount]
  | cons s pre ih =>
    intro cache pos h
    have hs := h s (List.mem_cons_self _ _)
    have hrest := ih (cache ++ [s]) (pos + s.Tracks.length)
      (fun x hx => h x (List.mem_cons_of_mem _ hx))
    have hc : cache ++ s :: pre = cache ++ [s] ++ pre := by simp
    have hp : pos + trackCount (s :: pre) = pos + s.Tracks.length + trackCount pre := by
      simp [trackCount, Nat.add_assoc]
    simp only [List.cons_append, scanPage, hs, Bool.false_eq_true, if_false]
    rw [hc, hp]
    exact hrest

theorem scanPage_stop (timeParse : String → Option Int) (last : Int)
    (pre : List HistorySource) (e : HistorySource) (post : List HistorySource)
    (cache : List HistorySource) (pos : Nat)
    (hpre : ∀ s ∈ pre, alreadySeen timeParse last s = false)
    (he : alreadySeen timeParse last e = true) :
    scanPage timeParse last (pre ++ e :: post) cache pos =
      (cache ++ pre, pos + trackCount pre, true) := by
  rw [scanPage_append_new timeParse last pre (e :: post) cache pos hpre]
  simp [scanPage, he]

theorem scanPage_extends_cache (timeParse : String → Option Int) (last : Int)
    (page : List HistorySource) :
    ∀ (cache : List HistorySource) (pos : Nat),
      cache <+: (scanPage timeParse last page cache pos).1 := by
  induction page with
  | nil => intro cache pos; simp [scanPage]
  | cons s rest ih =>
    intro cache pos
    by_cases hs : alreadySeen timeParse last s = true
    · simp [scanPage, hs]
    · simp only [scanPage, hs, if_false]
      exact List.IsPrefix.trans (List.prefix_append cache [s]) (ih _ _)

theorem alreadySeen_of_parsed_le (timeParse : String → Option Int) (last : Int)
    (e : HistorySource) (t : Int) (he : timeParse e.Time = some t) (hle : t ≤ last) :
    alreadySeen timeParse last e = true := by
  simp only [alreadySeen, parseHistoryTime, he, Bool.true_and, Bool.or_eq_true,
    decide_eq_true_eq]
  exact lt_or_eq_of_le hle

theorem alreadySeen_false_of_newer (timeParse : String → Option Int) (last : Int)
    (hz : last ≠ zeroTime) (s : HistorySource)
    (hnew : ∀ u, timeParse s.Time = some u → last < u) :
    alreadySeen timeParse last s = false := by
  cases hs : timeParse s.Time with
  | none =>
    simp only [alreadySeen, parseHistoryTime, hs, Bool.false_and, Bool.false_or,
      decide_eq_false_iff_not]
    exact fun h => hz h.symm
  | some u =>
    have hu := hnew u hs
    simp only [alreadySeen, parseHistoryTime, hs, Bool.true_and, Bool.or_eq_false_iff,
      decide_eq_false_iff_not]
    exact ⟨not_lt.mpr (le_of_lt hu), fun h => absurd hu (by rw [h]; exact lt_irrefl _)⟩

theorem lastCachedTime_of_cutoff (timeParse : String → Option Int) (cache : List HistorySource)
    (c : Int) (hcut : cutoff timeParse cache = some c) : lastCachedTime timeParse cache = c := by
  cases cache with
  | nil => simpa [cutoff, lastCachedTime] using hcut
  | cons first rest =>
    simp only [cutoff] at hcut
    simp [lastCachedTime, parseHistoryTime, hcut]

theorem fetchLoop_stops (timeParse : String → Option Int)
    (remote : Nat → Nat → Option (List HistorySource)) (last : Int) (maxHistory : Int)
    (pre : List HistorySource) (e : HistorySource) (post : List HistorySource)
    (hpre : ∀ s ∈ pre, alreadySeen timeParse last s = false)
    (he : alreadySeen timeParse last e = true) (pages : List (List HistorySource)) :
    ∀ (cache : List HistorySource) (pos : Nat) (reqs : List Nat) (fuel : Nat),
      Serves remote maxHistory pos pages →
      (∀ s ∈ pages.flatten, alreadySeen timeParse last s = false) →
      remote (pos + trackCount pages.flatten) 10 = some (pre ++ e :: post) →
      pages.length < fuel →
      fetchLoop timeParse remote last maxHistory fuel cache pos reqs =
        .done (cache ++ pages.flatten ++ pre)
          (reqs ++ offsets pos pages ++ [pos + trackCount pages.flatten]) := by
  induction pages with
  | nil =>
    intro cache pos reqs fuel _ _ hlast hfuel
    obtain ⟨f, rfl⟩ : ∃ f, fuel = f + 1 := ⟨fuel - 1, by simp at hfuel; omega⟩
    have hl : remote pos 10 = some (pre ++ e :: post) := by
      simpa [trackCount] using hlast
    simp [fetchLoop, hl, scanPage_stop timeParse last pre e post cache pos hpre he, offsets,
      trackCount]
  | cons page rest ih =>
    intro cache pos reqs fuel hserved hnew hlast hfuel
    obtain ⟨f, rfl⟩ : ∃ f, fuel = f + 1 := ⟨fuel - 1, by simp at hfuel; omega⟩
    obtain ⟨hpage, hcap, hrest⟩ := hserved
    have hnew1 : ∀ s ∈ page, alreadySeen timeParse last s = false :=
      fun s hs => hnew s (by simp [hs])
    have hnew2 : ∀ s ∈ rest.flatten, alreadySeen timeParse last s = false :=
      fun s hs => hnew s (by
        rw [List.flatten_cons]
        exact List.mem_append_right _ hs)
    have hlast2 : remote (pos + trackCount page + trackCount rest.flatten) 10 =
        some (pre ++ e :: post) := by
      rw [List.flatten_cons, trackCount_append, ← Nat.add_assoc] at hlast
      exact hlast
    have hih := ih (cache ++ page) (pos + trackCount page) (reqs ++ [pos]) f hrest hnew2 hlast2
      (by simp at hfuel; omega)
    have hcap' : ¬ (((pos + trackCount page : Nat) : Int) > maxHistory) := not_lt.mpr hcap
    simp only [fetchLoop, hpage, scanPage_all_new timeParse last page cache pos hnew1]
    rw [if_neg hcap', hih]
    simp [offsets, trackCount_append, Nat.add_assoc]

theorem fetchLoop_empty_remote (timeParse : String → Option Int) (last : Int) (fuel : Nat) :
    ∀ reqs : List Nat,
      fetchLoop timeParse (remoteOf []) last 1000 fuel [] 0 reqs =
        .running [] 0 (reqs ++ List.replicate fuel 0) := by
  induction fuel with
  | zero => intro reqs; simp [fetchLoop]
  | succ n ih =>
    intro reqs
    have hpage : remoteOf [] 0 10 = some [] := rfl
    simp only [fetchLoop, hpage, scanPage]
    rw [if_neg (by norm_num), ih (reqs ++ [0])]
    simp [List.replicate_succ]

/-! ## Claims -/

/-- C1 (as amended): when the remote offline list holds at most 1000 tracks, the
remote offline set after `updateSyncList` is exactly the set of track keys of
the first `min maxSync (length ranked)` ranked tracks, for every ranked list
(sorted or not), every `maxSync` and every such remote. -/
theorem updateSyncList_exact (remote : List String) (ranked : List RankedTrack) (maxSync : Nat)
    (hfit : remote.length ≤ 1000) (k : String) :
    k ∈ updateSyncList remote ranked maxSync ↔ k ∈ desiredKeys ranked maxSync := by
  rw [mem_updateSyncList, List.take_of_length_le hfit]
  tauto

/-- C1, example of the spec: `maxSync = 1`, ranked `[A, C]` and remote `{C, D}`
end with remote `{A}`. -/
theorem updateSyncList_exact_witness :
    ["C", "D"].length ≤ 1000 ∧
      updateSyncList ["C", "D"] exampleRanked 1 = ["A"] ∧
      ∀ k, k ∈ updateSyncList ["C", "D"] exampleRanked 1 ↔ k ∈ desiredKeys exampleRanked 1 :=
  ⟨by decide, by decide, fun k => updateSyncList_exact ["C", "D"] exampleRanked 1 (by decide) k⟩

/-- C1 as stated fails: with 1001 tracks offline, nothing ranked and
`maxSync = 0`, the track past the first 1000 stays offline although the desired
set is empty. -/
theorem updateSyncList_overfull_remote :
    ¬ (∀ k, k ∈ updateSyncList overfullRemote [] 0 ↔ k ∈ desiredKeys [] 0) := by
  intro h
  have hinj : ∀ n m : Nat, String.mk (List.replicate n 'a') = String.mk (List.replicate m 'a') →
      n = m := by
    intro n m e
    have := congrArg String.length e
    simpa [String.length] using this
  have hmem : String.mk (List.replicate 1000 'a') ∈ updateSyncList overfullRemote [] 0 := by
    rw [mem_updateSyncList]
    refine ⟨Or.inr ?_, ?_⟩
    · exact List.mem_map.mpr ⟨1000, by simp, rfl⟩
    · rintro ⟨hin, -⟩
      rw [overfullRemote, ← List.map_take, List.take_range] at hin
      obtain ⟨n, hn, e⟩ := List.mem_map.mp hin
      have := hinj _ _ e
      simp at hn
      omega
  have hd : desiredKeys [] 0 = [] := rfl
  have hnil := (h _).mp hmem
  rw [hd] at hnil
  exact List.not_mem_nil _ hnil

/-- C2: with ages as exact rationals and no qualifying play at age zero, the
output of `rankTracks` has exactly one element per distinct track key that has
a qualifying play (the keys of the output are pairwise distinct, and a key is
listed exactly when one of its plays parses and has `ageDays <= maxAge`), and
the rank of each element is the sum of `1 + 2 / ageDays` over the qualifying
plays of its key. -/
theorem rankTracks_exact (timeParse : String → Option Int) (now : Int)
    (sources : List HistorySource) (maxAge : Int)
    (hage : ∀ p ∈ allPlays sources, qualifies timeParse now maxAge p = true →
      playAge timeParse now p ≠ some 0) :
    ((rankTracks timeParse now sources maxAge).map (fun r => r.historyTrack.Track.Key)).Nodup ∧
      (∀ K, K ∈ (rankTracks timeParse now sources maxAge).map
            (fun r => r.historyTrack.Track.Key) ↔
          ∃ p ∈ allPlays sources, qualifies timeParse now maxAge p = true ∧ p.Track.Key = K) ∧
      ∀ r ∈ rankTracks timeParse now sources maxAge,
        r.rank = (((qualifyingPlays timeParse now maxAge r.historyTrack.Track.Key
          (allPlays sources)).map (exactContribution timeParse now)).sum : ℚ) := by
  refine ⟨?_, fun K => ?_, fun r hr => ?_⟩
  · rw [keys_rankTracks]
    exact (rankMap_spec timeParse now maxAge (allPlays sources)).1
  · rw [mem_keys_rankTracks, qualifyingPlays_ne_nil_iff]
  · rw [rank_of_mem_rankTracks timeParse now sources maxAge r hr, score]
    apply sum_contribution_eq_exact
    intro p hp
    rw [mem_qualifyingPlays] at hp
    exact hage p hp.1 hp.2.1

/-- C3: a track key all of whose plays are unparseable or older than `maxAge`
days is the key of no element of the output of `rankTracks`, however many plays
it has. -/
theorem rankTracks_excludes_old (timeParse : String → Option Int) (now : Int)
    (sources : List HistorySource) (maxAge : Int) (K : String)
    (hold : ∀ p ∈ allPlays sources, p.Track.Key = K →
      timeParse p.Time = none ∨
        ∃ t, timeParse p.Time = some t ∧ ageDays now t > (maxAge : ℚ)) :
    ∀ r ∈ rankTracks timeParse now sources maxAge, r.historyTrack.Track.Key ≠ K := by
  intro r hr hK
  have hin : K ∈ (rankTracks timeParse now sources maxAge).map
      (fun r => r.historyTrack.Track.Key) := List.mem_map.mpr ⟨r, hr, hK⟩
  rw [mem_keys_rankTracks, qualifyingPlays_ne_nil_iff] at hin
  obtain ⟨p, hp, hq, hpK⟩ := hin
  unfold qualifies playAge at hq
  rcases hold p hp hpK with h | ⟨t, ht, hgt⟩
  · simp [h] at hq
  · simp only [ht, Option.map_some', decide_eq_true_eq] at hq
    exact absurd hq (not_le.mpr hgt)

/-- C2, example of the spec: track A played at ages 1 and 10 days and track B
at age 30 days, with `maxAge = 21`, give the ranked output `[A: 4.2]`. -/
theorem rankTracks_exact_witness :
    (∀ p ∈ allPlays exampleHistory, qualifies layoutParse exampleNow 21 p = true →
        playAge layoutParse exampleNow p ≠ some 0) ∧
      rankTracks layoutParse exampleNow exampleHistory 21 = [⟨playA1, ((21 / 5 : ℚ) : F64)⟩] ∧
      (((rankTracks layoutParse exampleNow exampleHistory 21).map
          (fun r => r.historyTrack.Track.Key)).Nodup ∧
        (∀ K, K ∈ (rankTracks layoutParse exampleNow exampleHistory 21).map
              (fun r => r.historyTrack.Track.Key) ↔
            ∃ p ∈ allPlays exampleHistory,
              qualifies layoutParse exampleNow 21 p = true ∧ p.Track.Key = K) ∧
        ∀ r ∈ rankTracks layoutParse exampleNow exampleHistory 21,
          r.rank = (((qualifyingPlays layoutParse exampleNow 21 r.historyTrack.Track.Key
            (allPlays exampleHistory)).map (exactContribution layoutParse exampleNow)).sum : ℚ)) :=
  ⟨fun p hp _ => exampleHistory_ages p hp, rankTracks_exampleHistory,
    rankTracks_exact layoutParse exampleNow exampleHistory 21
      (fun p hp _ => exampleHistory_ages p hp)⟩

/-- C3, example: track B, played three times thirty days ago, is absent from
the output for `maxAge = 21`. -/
theorem rankTracks_excludes_old_witness :
    (∀ p ∈ allPlays oldPlaysHistory, p.Track.Key = "B" →
        layoutParse p.Time = none ∨
          ∃ t, layoutParse p.Time = some t ∧ ageDays exampleNow t > ((21 : Int) : ℚ)) ∧
      ∀ r ∈ rankTracks layoutParse exampleNow oldPlaysHistory 21,
        r.historyTrack.Track.Key ≠ "B" := by
  have hold : ∀ p ∈ allPlays oldPlaysHistory, p.Track.Key = "B" →
      layoutParse p.Time = none ∨
        ∃ t, layoutParse p.Time = some t ∧ ageDays exampleNow t > ((21 : Int) : ℚ) := by
    intro p hp hK
    have ha : allPlays oldPlaysHistory = [playB30, playB30, playB30, playA1] := rfl
    rw [ha] at hp
    simp only [List.mem_cons, List.mem_singleton, List.not_mem_nil, or_false] at hp
    have hB : layoutParse playB30.Time = some 1703203200000000000 := by decide
    have hage : ageDays exampleNow 1703203200000000000 > ((21 : Int) : ℚ) := by
      norm_num [ageDays, Hours, exampleNow]
    rcases hp with rfl | rfl | rfl | rfl
    · exact Or.inr ⟨_, hB, hage⟩
    · exact Or.inr ⟨_, hB, hage⟩
    · exact Or.inr ⟨_, hB, hage⟩
    · exact absurd hK (by decide)
  exact ⟨hold, rankTracks_excludes_old layoutParse exampleNow oldPlaysHistory 21 "B" hold⟩

/-- Monotonicity in play count away from the defect: for every history `H`,
every `maxAge`, every track key `K` and every additional play `p` of `K` that
qualifies for ranking and whose age is not in the open interval from -2 to 0
days, `rankTracks` lists `K` on `H` extended with `p`, wherever `p` is inserted,
with a rank at least the rank it assigns to `K` on `H`. -/
theorem rankTracks_monotone_plays (timeParse : String → Option Int) (now : Int) (maxAge : Int)
    (H H' : List HistorySource) (K : String) (p : HistoryTrack) (l₁ l₂ : List HistoryTrack)
    (hH : allPlays H = l₁ ++ l₂) (hH' : allPlays H' = l₁ ++ p :: l₂)
    (hK : p.Track.Key = K) (hq : qualifies timeParse now maxAge p = true)
    (hage : ∀ a, playAge timeParse now p = some a → 0 ≤ a ∨ a ≤ -2) :
    ∃ r', rankOf K (rankTracks timeParse now H' maxAge) = some r' ∧
      ∀ r, rankOf K (rankTracks timeParse now H maxAge) = some r → r ≤ r' := by
  have hone : qualifyingPlays timeParse now maxAge K [p] = [p] := by
    simp [qualifyingPlays, hq, hK]
  have hsplit : l₁ ++ p :: l₂ = l₁ ++ ([p] ++ l₂) := by simp
  have hne : qualifyingPlays timeParse now maxAge K (l₁ ++ p :: l₂) ≠ [] := by
    rw [hsplit, qualifyingPlays_append, qualifyingPlays_append, hone]
    simp
  refine ⟨score timeParse now maxAge K (l₁ ++ p :: l₂), ?_, ?_⟩
  · rw [rankOf_rankTracks, hH', if_neg hne]
  · intro r hr
    rw [rankOf_rankTracks, hH] at hr
    split_ifs at hr with h0
    have hr' : r = score timeParse now maxAge K (l₁ ++ l₂) := by
      simpa using hr.symm
    have hp : score timeParse now maxAge K [p] = contribution timeParse now p := by
      simp [score, hone]
    rw [hr', hsplit, score_append, score_append, score_append, hp]
    exact add_le_add_left
      (le_add_of_nonneg_left (contribution_nonneg timeParse now p hage)) _

/-- Example: adding the play of A at age 10 days to the history holding the play
of A at age 1 day does not lower the rank of A. -/
theorem rankTracks_monotone_plays_witness :
    (allPlays historyA1 = [playA1] ++ [] ∧ allPlays historyA1A10 = [playA1] ++ playA10 :: [] ∧
        playA10.Track.Key = "A" ∧ qualifies layoutParse exampleNow 21 playA10 = true ∧
        ∀ a, playAge layoutParse exampleNow playA10 = some a → 0 ≤ a ∨ a ≤ -2) ∧
      ∃ r', rankOf "A" (rankTracks layoutParse exampleNow historyA1A10 21) = some r' ∧
        ∀ r, rankOf "A" (rankTracks layoutParse exampleNow historyA1 21) = some r → r ≤ r' := by
  have hage : ∀ a, playAge layoutParse exampleNow playA10 = some a → 0 ≤ a ∨ a ≤ -2 := by
    intro a ha
    rw [playAge_playA10] at ha
    have : a = 10 := by simpa using ha.symm
    left
    rw [this]
    norm_num
  exact ⟨⟨rfl, rfl, rfl, qualifies_playA10, hage⟩,
    rankTracks_monotone_plays layoutParse exampleNow 21 historyA1 historyA1A10 "A" playA10
      [playA1] [] rfl rfl rfl qualifies_playA10 hage⟩

/-- C8, failing input: the play `playAhead` of A, stamped one day ahead of the
clock, qualifies (its age, -1 day, is at most `maxAge = 21`); its weighting is
`2.0 / (-1) = -2`, so adding it to the history lowers the rank of A from 3 to 2,
where the claim and the comment in `rankTracks` ask for a rank at least 3. -/
theorem rankTracks_play_ahead_lowers_rank :
    qualifies layoutParse exampleNow 21 playAhead = true ∧ playAhead.Track.Key = "A" ∧
      allPlays historyA1Ahead = allPlays historyA1 ++ [playAhead] ∧
      rankOf "A" (rankTracks layoutParse exampleNow historyA1 21) = some ((3 : ℚ) : F64) ∧
      rankOf "A" (rankTracks layoutParse exampleNow historyA1Ahead 21) = some ((2 : ℚ) : F64) ∧
      ¬ (((3 : ℚ) : F64) ≤ ((2 : ℚ) : F64)) := by
  refine ⟨qualifies_playAhead, rfl, rfl, ?_, ?_, ?_⟩
  · rw [rankTracks_historyA1]
    rfl
  · rw [rankTracks_historyA1Ahead]
    rfl
  · rw [WithTop.coe_le_coe]
    norm_num

/-- C10 (as amended): `rankTracks` does not treat `ageDays == 0` specially. The
rank of every element of its output is the `float64` sum of `1 + 2.0 / ageDays`
over the qualifying plays of its key, the divisor being the age itself, and it
is finite exactly when none of those plays has `ageDays = 0`. -/
theorem rankTracks_rank_finite_iff (timeParse : String → Option Int) (now : Int)
    (sources : List HistorySource) (maxAge : Int) (r : RankedTrack)
    (hr : r ∈ rankTracks timeParse now sources maxAge) :
    r.rank = score timeParse now maxAge r.historyTrack.Track.Key (allPlays sources) ∧
      (r.rank ≠ ⊤ ↔
        ∀ p ∈ qualifyingPlays timeParse now maxAge r.historyTrack.Track.Key (allPlays sources),
          playAge timeParse now p ≠ some 0) := by
  have hrank := rank_of_mem_rankTracks timeParse now sources maxAge r hr
  refine ⟨hrank, ?_⟩
  rw [hrank, Ne, score, sum_contribution_eq_top_iff]
  simp

/-- C10, example: in the ranking example of the spec no play has age zero and
the rank of A is finite. -/
theorem rankTracks_rank_finite_iff_witness :
    (⟨playA1, ((21 / 5 : ℚ) : F64)⟩ : RankedTrack) ∈
        rankTracks layoutParse exampleNow exampleHistory 21 ∧
      ((21 / 5 : ℚ) : F64) =
        score layoutParse exampleNow 21 "A" (allPlays exampleHistory) ∧
      (((21 / 5 : ℚ) : F64) ≠ ⊤ ↔
        ∀ p ∈ qualifyingPlays layoutParse exampleNow 21 "A" (allPlays exampleHistory),
          playAge layoutParse exampleNow p ≠ some 0) := by
  have hmem : (⟨playA1, ((21 / 5 : ℚ) : F64)⟩ : RankedTrack) ∈
      rankTracks layoutParse exampleNow exampleHistory 21 := by
    rw [rankTracks_exampleHistory]
    exact List.mem_singleton.mpr rfl
  exact ⟨hmem, rankTracks_rank_finite_iff layoutParse exampleNow exampleHistory 21 _ hmem⟩

/-- C10 as stated fails: for the play `playA0`, made at the time of ranking, the
divisor `ageDays` is zero (no clamping), the play qualifies, and the rank of its
track is `+Inf`, not a finite number. -/
theorem rankTracks_age_zero_infinite :
    playAge layoutParse exampleNow playA0 = some 0 ∧
      qualifies layoutParse exampleNow 21 playA0 = true ∧
      rankTracks layoutParse exampleNow historyA0 21 = [⟨playA0, ⊤⟩] :=
  ⟨playAge_playA0, qualifies_playA0, rankTracks_historyA0⟩

/-- The stop at the cutoff away from the defect: with `cutoff` the parseable
timestamp of cache entry 0, or the Unix epoch for an empty cache, and `cutoff`
not the instant of `time.Time{}`:
when the remote serves the pages `pages` and then a page `pre ++ e :: post`, in
which `e` is the first entry whose timestamp parses to an instant at or before
`cutoff`, `updateCache` returns after requesting exactly those pages, with the
entries before `e` appended; `e`, the rest of its page and all later pages are
not appended and no further page is requested. -/
theorem updateCache_stops_at_cutoff (timeParse : String → Option Int)
    (remote : Nat → Nat → Option (List HistorySource)) (cache : List HistorySource)
    (maxHistory : Int) (c : Int) (pages : List (List HistorySource))
    (pre : List HistorySource) (e : HistorySource) (post : List HistorySource) (t : Int)
    (fuel : Nat)
    (hcut : cutoff timeParse cache = some c) (hz : c ≠ zeroTime)
    (hserved : Serves remote maxHistory 0 pages)
    (hlast : remote (trackCount pages.flatten) 10 = some (pre ++ e :: post))
    (hnew : ∀ s ∈ pages.flatten ++ pre, ∀ u, timeParse s.Time = some u → c < u)
    (he : timeParse e.Time = some t) (hle : t ≤ c) (hfuel : pages.length < fuel) :
    updateCache timeParse remote cache maxHistory fuel =
      .done (cache ++ pages.flatten ++ pre) (offsets 0 pages ++ [trackCount pages.flatten]) := by
  have hlastc := lastCachedTime_of_cutoff timeParse cache c hcut
  have hpre : ∀ s ∈ pre, alreadySeen timeParse c s = false :=
    fun s hs => alreadySeen_false_of_newer timeParse c hz s (hnew s (List.mem_append_right _ hs))
  have hpages : ∀ s ∈ pages.flatten, alreadySeen timeParse c s = false :=
    fun s hs => alreadySeen_false_of_newer timeParse c hz s (hnew s (List.mem_append_left _ hs))
  have hseen := alreadySeen_of_parsed_le timeParse c e t he hle
  have h := fetchLoop_stops timeParse remote c maxHistory pre e post hpre hseen pages cache 0 []
    fuel hserved hpages (by simpa using hlast) hfuel
  rw [updateCache, hlastc, h]
  simp

/-- Example: the cache holds the entry of 5 January; the remote serves the
entry of 10 January, then a page with the entries of 7 and 5 January. The run
appends the first two and stops at the third after two requests. -/
theorem updateCache_stops_at_cutoff_witness :
    (cutoff layoutParse [entryJan05] = some jan05 ∧ jan05 ≠ zeroTime ∧
        Serves twoPageRemote 1000 0 [[entryJan10]] ∧
        twoPageRemote (trackCount [[entryJan10]].flatten) 10 =
          some ([entryJan07] ++ entryJan05 :: []) ∧
        (∀ s ∈ [[entryJan10]].flatten ++ [entryJan07], ∀ u,
          layoutParse s.Time = some u → jan05 < u) ∧
        layoutParse entryJan05.Time = some jan05 ∧ jan05 ≤ jan05 ∧ [[entryJan10]].length < 2) ∧
      updateCache layoutParse twoPageRemote [entryJan05] 1000 2 =
        .done [entryJan05, entryJan10, entryJan07] [0, 1] := by
  have hcut : cutoff layoutParse [entryJan05] = some jan05 := by decide
  have hz : jan05 ≠ zeroTime := by decide
  have hserved : Serves twoPageRemote 1000 0 [[entryJan10]] := by
    refine ⟨rfl, ?_, trivial⟩
    decide
  have hlast : twoPageRemote (trackCount [[entryJan10]].flatten) 10 =
      some ([entryJan07] ++ entryJan05 :: []) := by decide
  have hnew : ∀ s ∈ [[entryJan10]].flatten ++ [entryJan07], ∀ u,
      layoutParse s.Time = some u → jan05 < u := by
    intro s hs u hu
    have h10 : layoutParse entryJan10.Time = some 1704888000000000000 := by decide
    have h07 : layoutParse entryJan07.Time = some 1704628800000000000 := by decide
    simp only [List.flatten, List.nil_append, List.append_nil, List.cons_append, List.mem_cons,
      List.mem_singleton, List.not_mem_nil, or_false] at hs
    rcases hs with rfl | rfl
    · rw [h10] at hu
      rw [← Option.some.inj hu]
      decide
    · rw [h07] at hu
      rw [← Option.some.inj hu]
      decide
  have he : layoutParse entryJan05.Time = some jan05 := by decide
  exact ⟨⟨hcut, hz, hserved, hlast, hnew, he, le_refl _, by decide⟩,
    updateCache_stops_at_cutoff layoutParse twoPageRemote [entryJan05] 1000 jan05 [[entryJan10]]
      [entryJan07] entryJan05 [] jan05 2 hcut hz hserved hlast hnew he (le_refl _) (by decide)⟩

/-- C7, failing input: cache entry 0 is stamped 0001-01-01T00:00:00, which
parses, to the instant of `time.Time{}`. The remote returns an entry whose
timestamp does not parse, then the new entry of 10 January, then the cached
entry. The first entry whose parsed timestamp is at or before the cutoff is the
third one, but the loop stops at the first: the entry of 10 January is not
appended. -/
theorem updateCache_zero_cutoff_stops_early :
    cutoff layoutParse [entryYearOne] = some zeroTime ∧
      remoteOf [entryGarbled, entryJan10, entryYearOne] 0 10 =
        some ([entryGarbled, entryJan10] ++ entryYearOne :: []) ∧
      layoutParse entryGarbled.Time = none ∧
      layoutParse entryJan10.Time = some 1704888000000000000 ∧
      zeroTime < 1704888000000000000 ∧
      layoutParse entryYearOne.Time = some zeroTime ∧
      updateCache layoutParse (remoteOf [entryGarbled, entryJan10, entryYearOne])
        [entryYearOne] 1000 1 = .done [entryYearOne] [0] := by
  refine ⟨by decide, by decide, by decide, by decide, by decide, by decide, by decide⟩

/-- C9 (as amended): when `lastCachedTime` is not the instant of `time.Time{}`,
an entry `u` of a page whose timestamp fails to parse, reached by the scan, does
not stop the scan: it is appended to the cache, the position advances by its
number of tracks, and the scan goes on with the remaining entries of the page. -/
theorem updateCache_unparseable_entry_appended (timeParse : String → Option Int) (last : Int)
    (pre : List HistorySource) (u : HistorySource) (post : List HistorySource)
    (cache : List HistorySource) (pos : Nat)
    (hu : timeParse u.Time = none) (hz : last ≠ zeroTime)
    (hpre : ∀ s ∈ pre, alreadySeen timeParse last s = false) :
    scanPage timeParse last (pre ++ u :: post) cache pos =
        scanPage timeParse last post (cache ++ pre ++ [u])
          (pos + trackCount pre + u.Tracks.length) ∧
      u ∈ (scanPage timeParse last (pre ++ u :: post) cache pos).1 := by
  have hseen : alreadySeen timeParse last u = false :=
    alreadySeen_false_of_newer timeParse last hz u (by simp [hu])
  have heq : scanPage timeParse last (pre ++ u :: post) cache pos =
      scanPage timeParse last post (cache ++ pre ++ [u])
        (pos + trackCount pre + u.Tracks.length) := by
    rw [scanPage_append_new timeParse last pre (u :: post) cache pos hpre]
    simp [scanPage, hseen]
  refine ⟨heq, ?_⟩
  rw [heq]
  exact (scanPage_extends_cache timeParse last post _ _).subset (by simp)

/-- C9, example: with the cutoff of 5 January, the garbled entry between the
entries of 10 and 7 January is appended and the scan goes on to the entry of
7 January. -/
theorem updateCache_unparseable_entry_appended_witness :
    (layoutParse entryGarbled.Time = none ∧ jan05 ≠ zeroTime ∧
        ∀ s ∈ [entryJan10], alreadySeen layoutParse jan05 s = false) ∧
      scanPage layoutParse jan05 ([entryJan10] ++ entryGarbled :: [entryJan07, entryJan05])
          [entryJan05] 0 =
        ([entryJan05, entryJan10, entryGarbled, entryJan07], 3, true) ∧
      (scanPage layoutParse jan05 ([entryJan10] ++ entryGarbled :: [entryJan07, entryJan05])
            [entryJan05] 0 =
          scanPage layoutParse jan05 [entryJan07, entryJan05]
            ([entryJan05] ++ [entryJan10] ++ [entryGarbled])
            (0 + trackCount [entryJan10] + entryGarbled.Tracks.length) ∧
        entryGarbled ∈ (scanPage layoutParse jan05
          ([entryJan10] ++ entryGarbled :: [entryJan07, entryJan05]) [entryJan05] 0).1) :=
  ⟨⟨by decide, by decide, by decide⟩, by decide,
    updateCache_unparseable_entry_appended layoutParse jan05 [entryJan10] entryGarbled
      [entryJan07, entryJan05] [entryJan05] 0 (by decide) (by decide) (by decide)⟩

/-- C9 as stated fails: the timestamp of `entryGarbled` does not parse, and
`updateCache` appends the entry to the cache before it stops at the cached entry
of 5 January. -/
theorem updateCache_appends_unparseable :
    layoutParse entryGarbled.Time = none ∧
      updateCache layoutParse (remoteOf [entryGarbled, entryJan05]) [entryJan05] 1000 1 =
        .done [entryJan05, entryGarbled] [0] := by
  refine ⟨by decide, by decide⟩

/-- C5, failing input: with an empty cache and a remote that has no history
(every page is empty), the loop of `updateCache` is still running after any
number `fuel` of page requests, all of them at offset 0. -/
theorem updateCache_empty_remote_never_stops (timeParse : String → Option Int) (fuel : Nat) :
    updateCache timeParse (remoteOf []) [] 1000 fuel =
      .running [] 0 (List.replicate fuel 0) := by
  rw [updateCache, fetchLoop_empty_remote]
  simp

/-- C6, failing input: the cache `[5 Jan]` and the remote history
`[10 Jan, 7 Jan, 5 Jan]` are both newest-first, and the cache `updateCache`
writes is `[5 Jan, 10 Jan, 7 Jan]`, which is not: its entry 0 is its oldest. -/
theorem updateCache_breaks_newest_first :
    newestFirst layoutParse [entryJan05] = true ∧
      newestFirst layoutParse [entryJan10, entryJan07, entryJan05] = true ∧
      updateCache layoutParse (remoteOf [entryJan10, entryJan07, entryJan05]) [entryJan05]
        1000 1 = .done [entryJan05, entryJan10, entryJan07] [0] ∧
      newestFirst layoutParse [entryJan05, entryJan10, entryJan07] = false := by
  refine ⟨by decide, by decide, by decide, by decide⟩

/-- C4, failing input: against the unchanged remote history
`[10 Jan, 7 Jan, 5 Jan]`, a first run on the cache `[5 Jan]` writes
`[5 Jan, 10 Jan, 7 Jan]` and a second run on that cache appends the entries of
10 and 7 January again. -/
theorem updateCache_second_run_duplicates :
    updateCache layoutParse (remoteOf [entryJan10, entryJan07, entryJan05]) [entryJan05]
        1000 1 = .done [entryJan05, entryJan10, entryJan07] [0] ∧
      updateCache layoutParse (remoteOf [entryJan10, entryJan07, entryJan05])
        [entryJan05, entryJan10, entryJan07] 1000 1 =
          .done [entryJan05, entryJan10, entryJan07, entryJan10, entryJan07] [0] ∧
      [entryJan05, entryJan10, entryJan07, entryJan10, entryJan07].count entryJan10 = 2 := by
  refine ⟨by decide, by decide, by decide⟩

end RdioCache
